import Mathlib

/-!
# Chunked asset-transfer core: a shallow embedding

This file embeds the chunking / framing / reassembly core of the
WebRTC proof-of-concept repository:

* `BlobAssembler` / `ImageAssembler` — the generic chunk reassembler
  (`src/backend/WebRtc/BlobAssembler.cs`, and its identical image copy).
* `processImageChunk` — the per-camera image session manager
  (`SignalingHandler.ProcessImageChunk`, after header parsing).
* `VideoRecorder` — the multi-blob video recording session
  (`src/backend/WebRtc/VideoRecorder.cs`).
* the sender-side chunk pump and packet framing
  (`image-transfer.service.ts`, `video-recording.service.ts`), and the
  backpressure thresholds of both sender generations.

Byte buffers are lists of naturals (one entry per byte); fixed-size
arrays become lists whose length is an invariant; the C# dictionaries
become association lists (sorted for `SortedDictionary`).
-/

set_option maxRecDepth 100000

/-- A byte buffer: one natural number per byte. -/
abbrev ByteBuf := List Nat

namespace ChunkTransfer

/-- Wire-contract constant: nominal chunk payload size, 16 KiB
(`CHUNK_SIZE` in `models.ts`). -/
def CHUNK_SIZE : Nat := 16 * 1024

/-- Fixed image frame header size, 64 bytes (`IMAGE_HEADER_SIZE`). -/
def IMAGE_HEADER_SIZE : Nat := 64

/-- Fixed video frame header size, 256 bytes (`VIDEO_HEADER_SIZE`). -/
def VIDEO_HEADER_SIZE : Nat := 256

/-- State of `BlobAssembler` (`src/backend/WebRtc/BlobAssembler.cs`):
the fixed-length slot array `_chunks` (one optional byte buffer per
chunk index) and `_receivedCount`.  The array length never changes, so
`_totalChunks` is the length of `chunks`.  `ImageAssembler`
(`src/unnamed/part_000`) is line-for-line the same class. -/
structure BlobAssembler where
  chunks : List (Option ByteBuf)
  receivedCount : Nat
  deriving DecidableEq, Repr

/-- `new BlobAssembler(totalChunks)`: `totalChunks` empty slots,
received count zero. -/
def BlobAssembler.create (totalChunks : Nat) : BlobAssembler :=
  { chunks := List.replicate totalChunks none, receivedCount := 0 }

/-- `_totalChunks`, recovered as the fixed slot-array length. -/
def BlobAssembler.totalChunks (a : BlobAssembler) : Nat :=
  a.chunks.length

/-- `IsComplete => _receivedCount == _totalChunks`. -/
def BlobAssembler.isComplete (a : BlobAssembler) : Bool :=
  a.receivedCount == a.totalChunks

/-- `AddChunk(index, data)`: out-of-range indices are dropped silently;
an already-filled slot makes the call a no-op; otherwise the slot is
filled and the received count incremented. -/
def BlobAssembler.addChunk (a : BlobAssembler) (index : Int) (data : ByteBuf) :
    BlobAssembler :=
  if index < 0 ∨ (a.totalChunks : Int) ≤ index then a
  else
    match a.chunks.getD index.toNat none with
    | none =>
        { chunks := a.chunks.set index.toNat (some data)
          receivedCount := a.receivedCount + 1 }
    | some _ => a

/-- `GetCompleteBlob()` / `GetCompleteImage()`: concatenate the
non-null slots in ascending index order. -/
def BlobAssembler.getCompleteBlob (a : BlobAssembler) : ByteBuf :=
  (a.chunks.filterMap id).flatten

/-- `ImageAssembler` is the image-channel copy of the same class. -/
abbrev ImageAssembler := BlobAssembler

/-- Receiver-side image-transfer state for one camera key: the key's
entry in the `imageAssemblers` dictionary (`none` = no live
reassembler) and the list of completed images saved so far, in
emission order. -/
structure ImgState where
  assembler : Option ImageAssembler
  emitted : List ByteBuf
  deriving DecidableEq, Repr

/-- Initial state: no live reassembler, nothing emitted. -/
def ImgState.init : ImgState :=
  { assembler := none, emitted := [] }

/-- `SignalingHandler.ProcessImageChunk` for one camera key, after the
header has been parsed: `GetOrAdd` lazily creates an assembler sized to
the frame's `TotalChunks`; a frame with `ChunkIndex == 0` replaces the
entry with a fresh assembler; the chunk is added; on completion the
image is saved (emitted) and the key's entry removed. -/
def processImageChunk (s : ImgState) (chunkIndex : Int) (totalChunks : Nat)
    (payload : ByteBuf) : ImgState :=
  let a0 := match s.assembler with
    | some a => a
    | none => BlobAssembler.create totalChunks
  let a1 := if chunkIndex = 0 then BlobAssembler.create totalChunks else a0
  let a2 := a1.addChunk chunkIndex payload
  if a2.isComplete then
    { assembler := none, emitted := s.emitted ++ [a2.getCompleteBlob] }
  else
    { assembler := some a2, emitted := s.emitted }

/-- Deliver a list of (ChunkIndex, payload) frames, all carrying the
same `TotalChunks` header field, to the image reassembly path. -/
def deliverImageFrames (s : ImgState) (totalChunks : Nat)
    (frames : List (Nat × ByteBuf)) : ImgState :=
  frames.foldl (fun st f => processImageChunk st (f.1 : Int) totalChunks f.2) s

/-- `Math.ceil(byteLength / chunkSize)` on naturals. -/
def totalChunksFor (len C : Nat) : Nat :=
  (len + C - 1) / C

/-- The slice `bytes[i*C .. min((i+1)*C, len))` taken by the sender
loop (`imageData.slice(start, end)`). -/
def chunkAt (B : ByteBuf) (C i : Nat) : ByteBuf :=
  (B.drop (i * C)).take C

/-- The ordered (ChunkIndex, payload) frames produced by
`sendChunkedImage` for a buffer `B` and chunk size `C`. -/
def imageFrames (B : ByteBuf) (C : Nat) : List (Nat × ByteBuf) :=
  (List.range (totalChunksFor B.length C)).map (fun i => (i, chunkAt B C i))

/-- Association-list lookup for the C# dictionaries (integer keys). -/
def lookupKey {α : Type} (k : Int) : List (Int × α) → Option α
  | [] => none
  | (q, v) :: rest => if k = q then some v else lookupKey k rest

/-- Association-list insert-or-update (`dict[k] = v`) for the
unordered dictionaries. -/
def setKey {α : Type} (k : Int) (v : α) : List (Int × α) → List (Int × α)
  | [] => [(k, v)]
  | (q, w) :: rest => if k = q then (k, v) :: rest else (q, w) :: setKey k v rest

/-- Association-list removal (`dict.TryRemove(k)`). -/
def removeKey {α : Type} (k : Int) : List (Int × α) → List (Int × α)
  | [] => []
  | (q, w) :: rest => if k = q then rest else (q, w) :: removeKey k rest

/-- Insert-or-update into a `SortedDictionary` kept as a key-sorted
association list (ascending keys). -/
def sortedInsert {α : Type} (k : Int) (v : α) : List (Int × α) → List (Int × α)
  | [] => [(k, v)]
  | (q, w) :: rest =>
    if k < q then (k, v) :: (q, w) :: rest
    else if k = q then (k, v) :: rest
    else (q, w) :: sortedInsert k v rest

/-- State of `VideoRecorder` (`src/backend/WebRtc/VideoRecorder.cs`):
`_blobs` (a `SortedDictionary` from blob index to completed blob
bytes, modelled as a key-sorted association list), `_blobAssemblers`
(in-progress reassemblers), and `TotalBytes`.  The identifier strings
(`_recordingId`, `_cameraId`, `_mimeType`) do not influence the byte
stream and are omitted. -/
structure VideoRecorder where
  blobs : List (Int × ByteBuf)
  blobAssemblers : List (Int × BlobAssembler)
  totalBytes : Nat
  deriving DecidableEq, Repr

/-- A freshly constructed recorder. -/
def VideoRecorder.init : VideoRecorder :=
  { blobs := [], blobAssemblers := [], totalBytes := 0 }

/-- `VideoRecorder.AddChunk(blobIndex, chunkIndex, totalChunks,
chunkData)`: get-or-create the blob's assembler, add the chunk, and on
completion move the materialized bytes into `_blobs`, add their length
to `TotalBytes`, and drop the transient assembler. -/
def VideoRecorder.addChunk (r : VideoRecorder) (blobIndex chunkIndex : Int)
    (totalChunks : Nat) (chunkData : ByteBuf) : VideoRecorder :=
  let assembler := match lookupKey blobIndex r.blobAssemblers with
    | some a => a
    | none => BlobAssembler.create totalChunks
  let a2 := assembler.addChunk chunkIndex chunkData
  if a2.isComplete then
    let blobData := a2.getCompleteBlob
    { blobs := sortedInsert blobIndex blobData r.blobs
      blobAssemblers := removeKey blobIndex r.blobAssemblers
      totalBytes := r.totalBytes + blobData.length }
  else
    { r with blobAssemblers := setKey blobIndex a2 r.blobAssemblers }

/-- `VideoRecorder.Finalize`: with zero completed blobs nothing is
saved (`none`); otherwise the completed blobs are written out in
`SortedDictionary` iteration order, i.e. the emitted byte stream is
their concatenation in ascending blob-index order.  File naming and
the ffmpeg conversion are outside the byte-stream contract. -/
def VideoRecorder.finalize (r : VideoRecorder) : Option ByteBuf :=
  if r.blobs.isEmpty then none
  else some ((r.blobs.map Prod.snd).flatten)

/-- One `data` action as routed to `VideoRecorder.AddChunk`. -/
structure DataAct where
  blobIndex : Int
  chunkIndex : Int
  totalChunks : Nat
  payload : ByteBuf
  deriving DecidableEq, Repr

/-- Run a sequence of `data` actions against a fresh recorder. -/
def VideoRecorder.run (acts : List DataAct) : VideoRecorder :=
  acts.foldl
    (fun r a => r.addChunk a.blobIndex a.chunkIndex a.totalChunks a.payload)
    VideoRecorder.init

/-- UTF-8 encoding of one character (`TextEncoder.encode`, per code
point). -/
def charUtf8 (c : Char) : List Nat :=
  let n := c.toNat
  if n < 0x80 then [n]
  else if n < 0x800 then [0xC0 + n / 0x40, 0x80 + n % 0x40]
  else if n < 0x10000 then
    [0xE0 + n / 0x1000, 0x80 + (n / 0x40) % 0x40, 0x80 + n % 0x40]
  else
    [0xF0 + n / 0x40000, 0x80 + (n / 0x1000) % 0x40, 0x80 + (n / 0x40) % 0x40,
     0x80 + n % 0x40]

/-- `new TextEncoder().encode(s)`: the UTF-8 bytes of a string. -/
def strBytes (s : String) : ByteBuf :=
  s.data.flatMap charUtf8

/-- The image chunk header record (`ChunkHeader` in `models.ts`). -/
structure ChunkHeader where
  CameraId : String
  ChunkIndex : Nat
  TotalChunks : Nat

/-- `JSON.stringify(header)` for an image `ChunkHeader`, for camera
ids that contain no character needing a JSON escape (the ids the app
produces are plain device-id strings). -/
def chunkHeaderJson (h : ChunkHeader) : String :=
  "\x7b\"CameraId\":\"" ++ h.CameraId ++ "\",\"ChunkIndex\":" ++
    toString h.ChunkIndex ++ ",\"TotalChunks\":" ++ toString h.TotalChunks ++ "\x7d"

/-- `createImagePacket` (`image-transfer.service.ts`): serialize the
header, keep at most `IMAGE_HEADER_SIZE` of its bytes
(`headerBytes.slice(0, IMAGE_HEADER_SIZE)` written into a zeroed
64-byte buffer), and append the chunk payload. -/
def createImagePacket (header : ChunkHeader) (chunkData : ByteBuf) : ByteBuf :=
  let headerBytes := strBytes (chunkHeaderJson header)
  let taken := headerBytes.take IMAGE_HEADER_SIZE
  let paddedHeader := taken ++ List.replicate (IMAGE_HEADER_SIZE - taken.length) 0
  paddedHeader ++ chunkData

/-- The video chunk header record (`VideoChunkHeader` in `models.ts`). -/
structure VideoChunkHeader where
  Action : String
  RecordingId : String
  CameraId : String
  MimeType : String
  ChunkIndex : Nat
  TotalChunks : Nat
  BlobIndex : Nat

/-- `JSON.stringify(header)` for a `VideoChunkHeader`, for field
values containing no character needing a JSON escape. -/
def videoChunkHeaderJson (h : VideoChunkHeader) : String :=
  "\x7b\"Action\":\"" ++ h.Action ++ "\",\"RecordingId\":\"" ++ h.RecordingId ++
    "\",\"CameraId\":\"" ++ h.CameraId ++ "\",\"MimeType\":\"" ++ h.MimeType ++
    "\",\"ChunkIndex\":" ++ toString h.ChunkIndex ++ ",\"TotalChunks\":" ++
    toString h.TotalChunks ++ ",\"BlobIndex\":" ++ toString h.BlobIndex ++ "\x7d"

/-- The packet built by `sendSingleVideoPacket`
(`video-recording.service.ts`): header bytes truncated to
`VIDEO_HEADER_SIZE`, zero-padded, then the chunk payload. -/
def createVideoPacket (header : VideoChunkHeader) (chunkData : ByteBuf) : ByteBuf :=
  let headerBytes := strBytes (videoChunkHeaderJson header)
  let taken := headerBytes.take VIDEO_HEADER_SIZE
  let paddedHeader := taken ++ List.replicate (VIDEO_HEADER_SIZE - taken.length) 0
  paddedHeader ++ chunkData

/-- The sequence of packets `sendChunkedImage` passes to
`dataChannel.send`, in transmission order. -/
def sendChunkedImage (cameraId : String) (imageData : ByteBuf) : List ByteBuf :=
  let totalChunks := totalChunksFor imageData.length CHUNK_SIZE
  (List.range totalChunks).map (fun i =>
    createImagePacket ⟨cameraId, i, totalChunks⟩ (chunkAt imageData CHUNK_SIZE i))

/-- `image-transfer.service.ts` `waitForBufferDrain`: the drain
promise resolves only when `bufferedAmount` is strictly below this
1 MiB threshold. -/
def imageLowThreshold : Nat := 1024 * 1024

/-- `video-recording.service.ts` `waitForBufferDrain`: same 1 MiB
threshold on the video channel. -/
def videoLowThreshold : Nat := 1024 * 1024

/-- The image sender's transmit guard: a chunk is sent only in a state
where the drain promise has resolved, i.e. `bufferedAmount <
lowThreshold`. -/
def imageSendAllowed (bufferedAmount : Nat) : Bool :=
  bufferedAmount < imageLowThreshold

/-- The video sender's transmit guard (`bufferedAmount <
lowThreshold`). -/
def videoSendAllowed (bufferedAmount : Nat) : Bool :=
  bufferedAmount < videoLowThreshold

/-- Legacy combined sender (`src/unnamed/part_002`)
`waitForImageBufferDrain`: 256 KiB high-water mark. -/
def legacyImageMaxBuffered : Nat := 256 * 1024

/-- Legacy combined sender (`src/unnamed/part_002`)
`waitForVideoBufferDrain`: 1 MiB high-water mark. -/
def legacyVideoMaxBuffered : Nat := 1024 * 1024



/-! ## Basic facts about the reassembler -/

/-- Setting a slot leaves the slot-array length (i.e. `_totalChunks`)
unchanged. -/
theorem BlobAssembler.totalChunks_addChunk (a : BlobAssembler) (i : Int)
    (p : ByteBuf) : (a.addChunk i p).totalChunks = a.totalChunks := by
  unfold BlobAssembler.addChunk
  split
  · rfl
  · split
    · simp [BlobAssembler.totalChunks, List.length_set]
    · rfl

/-- A fresh assembler has `totalChunks` slots. -/
theorem BlobAssembler.totalChunks_create (n : Nat) :
    (BlobAssembler.create n).totalChunks = n := by
  simp [BlobAssembler.create, BlobAssembler.totalChunks]

/-- Reading back a slot just set. -/
theorem getD_set_self (l : List (Option ByteBuf)) (i : Nat) (x : Option ByteBuf)
    (h : i < l.length) : (l.set i x).getD i none = x := by
  rw [List.getD_eq_getElem?_getD, List.getElem?_set_self h]
  rfl

/-- Number of filled slots. -/
def filledCount (l : List (Option ByteBuf)) : Nat :=
  (l.filter (fun o => o.isSome)).length

/-- Filling an empty slot raises the filled-slot count by one. -/
theorem filledCount_set (l : List (Option ByteBuf)) (i : Nat) (p : ByteBuf)
    (h : i < l.length) (h0 : l.getD i none = none) :
    filledCount (l.set i (some p)) = filledCount l + 1 := by
  induction l generalizing i with
  | nil => simp at h
  | cons x xs ih =>
    cases i with
    | zero =>
      have hx : x = none := by simpa using h0
      subst hx
      simp [filledCount, List.filter_cons]
    | succ n =>
      have h' : n < xs.length := by simpa using h
      have h0' : xs.getD n none = none := by simpa using h0
      have := ih n h' h0'
      cases hx : x.isSome <;>
        simp_all [filledCount, List.filter_cons, List.set_cons_succ]

/-- `AddChunk` keeps `_receivedCount` equal to the number of filled
slots. -/
theorem addChunk_filled (a : BlobAssembler) (i : Int) (p : ByteBuf)
    (h : a.receivedCount = filledCount a.chunks) :
    (a.addChunk i p).receivedCount = filledCount (a.addChunk i p).chunks := by
  unfold BlobAssembler.addChunk
  split
  · exact h
  · rename_i hrange
    push_neg at hrange
    have hlt : i.toNat < a.chunks.length := by
      have h1 := hrange.1
      have h2 := hrange.2
      simp only [BlobAssembler.totalChunks] at h2
      omega
    split
    · rename_i hslot
      simp only [filledCount_set a.chunks i.toNat p hlt hslot]
      omega
    · exact h

/-- The filled-slot count never exceeds the slot count. -/
theorem filledCount_le_length (l : List (Option ByteBuf)) :
    filledCount l ≤ l.length :=
  List.length_filter_le _ l

/-- C7 counterpart at the state level: `_receivedCount` of any
assembler reachable from `new BlobAssembler(n)` counts its filled
slots, and the slot array still has `n` slots. -/
theorem run_addChunk_invariant (n : Nat) (l : List (Int × ByteBuf)) :
    (l.foldl (fun a q => a.addChunk q.1 q.2) (BlobAssembler.create n)).receivedCount
        = filledCount
            (l.foldl (fun a q => a.addChunk q.1 q.2) (BlobAssembler.create n)).chunks ∧
    (l.foldl (fun a q => a.addChunk q.1 q.2) (BlobAssembler.create n)).chunks.length
        = n := by
  suffices h : ∀ (a : BlobAssembler),
      a.receivedCount = filledCount a.chunks →
      (l.foldl (fun a q => a.addChunk q.1 q.2) a).receivedCount
          = filledCount (l.foldl (fun a q => a.addChunk q.1 q.2) a).chunks ∧
      (l.foldl (fun a q => a.addChunk q.1 q.2) a).chunks.length = a.chunks.length by
    have h0 : (BlobAssembler.create n).receivedCount
        = filledCount (BlobAssembler.create n).chunks := by
      simp [BlobAssembler.create, filledCount, List.filter_replicate]
    have := h (BlobAssembler.create n) h0
    simpa [BlobAssembler.create] using this
  induction l with
  | nil => intro a ha; exact ⟨ha, rfl⟩
  | cons q rest ih =>
    intro a ha
    have hstep := addChunk_filled a q.1 q.2 ha
    have hlen := BlobAssembler.totalChunks_addChunk a q.1 q.2
    simp only [BlobAssembler.totalChunks] at hlen
    have := ih (a.addChunk q.1 q.2) hstep
    exact ⟨this.1, by simp [List.foldl_cons] at this ⊢; omega⟩

/-! ## Claim theorems: reassembler local behaviour -/

/-- C7: delivering the same `(index, payload)` to a reassembler twice
yields the same final state as delivering it once (the second call is
a no-op on an already-filled slot), and after any sequence of
`AddChunk` calls on a fresh assembler `_receivedCount` never exceeds
`_totalChunks`. -/
theorem addChunk_oob (a : BlobAssembler) (i : Int) (p : ByteBuf)
    (h : i < 0 ∨ (a.totalChunks : Int) ≤ i) : a.addChunk i p = a := by
  unfold BlobAssembler.addChunk
  rw [if_pos h]

/-- `AddChunk` on an already-filled slot is a no-op. -/
theorem addChunk_hit (a : BlobAssembler) (i : Int) (p v : ByteBuf)
    (h : ¬ (i < 0 ∨ (a.totalChunks : Int) ≤ i))
    (hs : a.chunks.getD i.toNat none = some v) : a.addChunk i p = a := by
  unfold BlobAssembler.addChunk
  rw [if_neg h, hs]

/-- `AddChunk` on an empty in-range slot fills it and increments the
received count. -/
theorem addChunk_fills (a : BlobAssembler) (i : Int) (p : ByteBuf)
    (h : ¬ (i < 0 ∨ (a.totalChunks : Int) ≤ i))
    (hs : a.chunks.getD i.toNat none = none) :
    a.addChunk i p =
      { chunks := a.chunks.set i.toNat (some p)
        receivedCount := a.receivedCount + 1 } := by
  unfold BlobAssembler.addChunk
  rw [if_neg h, hs]

/-- C7: delivering the same `(index, payload)` to a reassembler twice
yields the same final state as delivering it once (the second call is
a no-op on an already-filled slot), and after any sequence of
`AddChunk` calls on a fresh assembler `_receivedCount` never exceeds
`_totalChunks`. -/
theorem chunk_write_idempotent_and_bounded :
    (∀ (a : BlobAssembler) (i : Int) (p : ByteBuf),
        (a.addChunk i p).addChunk i p = a.addChunk i p) ∧
    (∀ (n : Nat) (l : List (Int × ByteBuf)),
        (l.foldl (fun a q => a.addChunk q.1 q.2)
          (BlobAssembler.create n)).receivedCount ≤ n) := by
  constructor
  · intro a i p
    by_cases h : i < 0 ∨ (a.totalChunks : Int) ≤ i
    · rw [addChunk_oob a i p h, addChunk_oob a i p h]
    · have hlt : i.toNat < a.chunks.length := by
        push_neg at h
        have h2 := h.2
        simp only [BlobAssembler.totalChunks] at h2
        omega
      rcases hslot : a.chunks.getD i.toNat none with _ | v
      · rw [addChunk_fills a i p h hslot]
        apply addChunk_hit _ _ _ p
        · simpa only [BlobAssembler.totalChunks, List.length_set] using h
        · exact getD_set_self _ _ _ hlt
      · rw [addChunk_hit a i p v h hslot, addChunk_hit a i p v h hslot]
  · intro n l
    have h := run_addChunk_invariant n l
    calc (l.foldl (fun a q => a.addChunk q.1 q.2)
            (BlobAssembler.create n)).receivedCount
        = filledCount (l.foldl (fun a q => a.addChunk q.1 q.2)
            (BlobAssembler.create n)).chunks := h.1
      _ ≤ (l.foldl (fun a q => a.addChunk q.1 q.2)
            (BlobAssembler.create n)).chunks.length := filledCount_le_length _
      _ = n := h.2

/-- C8: a chunk whose index lies outside `[0, totalChunks)` leaves the
reassembler state entirely unchanged: no slot is written and
`_receivedCount` is not altered; the chunk is dropped without error. -/
theorem addChunk_out_of_range (a : BlobAssembler) (i : Int) (p : ByteBuf)
    (h : i < 0 ∨ (a.totalChunks : Int) ≤ i) :
    a.addChunk i p = a := by
  unfold BlobAssembler.addChunk
  simp [h]

/-- C8 witness: a 2-slot assembler drops the out-of-range indices `5`
and `-1` unchanged. -/
theorem addChunk_out_of_range_witness :
    (BlobAssembler.create 2).addChunk 5 [3] = BlobAssembler.create 2 ∧
    (BlobAssembler.create 2).addChunk (-1) [3] = BlobAssembler.create 2 :=
  ⟨addChunk_out_of_range _ 5 [3] (by decide),
   addChunk_out_of_range _ (-1) [3] (by decide)⟩

/-! ## Claim theorems: image session manager -/

/-- C6: a frame with `chunkIndex == 0` discards whatever reassembler
the key had (the resulting state does not depend on it), installs a
fresh assembler sized to this frame's `totalChunks` holding only this
frame's chunk, and subsequent completion is therefore determined by
the fresh assembler alone. -/
theorem reset_on_zero (s : ImgState) (n : Nat) (p : ByteBuf) :
    processImageChunk s 0 n p =
      (let a := (BlobAssembler.create n).addChunk 0 p
       if a.isComplete then
         { assembler := none, emitted := s.emitted ++ [a.getCompleteBlob] }
       else { assembler := some a, emitted := s.emitted }) ∧
    ((BlobAssembler.create n).addChunk 0 p).totalChunks = n := by
  constructor
  · simp [processImageChunk]
  · rw [BlobAssembler.totalChunks_addChunk, BlobAssembler.totalChunks_create]

/-- C5 counterexample: after the single-chunk image for a key is
emitted (and the key's entry removed), a frame with `chunkIndex = 1`
(non-zero) still creates a live reassembler for the key, contrary to
the claim that no reassembler exists until the next `chunkIndex == 0`
frame. -/
theorem emitted_then_lazy_create_counterexample :
    (processImageChunk ImgState.init 0 1 [9]).emitted ≠ [] ∧
    (processImageChunk ImgState.init 0 1 [9]).assembler = none ∧
    (processImageChunk (processImageChunk ImgState.init 0 1 [9]) 1 3 [7]).assembler
      ≠ none := by
  decide

/-- C5 amended: emission and removal are atomic (whenever a frame
emits an image, the key's entry is removed), but after emission the
next frame of ANY chunk index lazily re-creates a fresh reassembler
sized to that frame's `totalChunks`; `chunkIndex == 0` is not
required. -/
theorem emission_removes_then_any_frame_creates (s : ImgState) (i : Int)
    (n : Nat) (p : ByteBuf) :
    ((processImageChunk s i n p).emitted ≠ s.emitted →
        (processImageChunk s i n p).assembler = none) ∧
    (s.assembler = none →
      processImageChunk s i n p =
        (let a := (BlobAssembler.create n).addChunk i p
         if a.isComplete then
           { assembler := none, emitted := s.emitted ++ [a.getCompleteBlob] }
         else { assembler := some a, emitted := s.emitted })) := by
  constructor
  · intro hne
    unfold processImageChunk at hne ⊢
    rcases s with ⟨asm, em⟩
    rcases asm with _ | a <;> dsimp only at hne ⊢ <;> split at hne <;>
      split at hne <;> simp_all
  · intro hnone
    unfold processImageChunk
    rw [hnone]
    simp [ite_self]

/-- C5 witness: the amended theorem applied after an emission (state
with no live reassembler) at the non-zero index 1, and the atomicity
conjunct applied at the emitting frame. -/
theorem emission_removes_then_any_frame_creates_witness :
    (processImageChunk { assembler := none, emitted := [[9]] } 1 3 [7] =
      (let a := (BlobAssembler.create 3).addChunk 1 [7]
       if a.isComplete then
         { assembler := none, emitted := [[9]] ++ [a.getCompleteBlob] }
       else { assembler := some a, emitted := [[9]] })) ∧
    (processImageChunk ImgState.init 0 1 [9]).assembler = none :=
  ⟨(emission_removes_then_any_frame_creates
      { assembler := none, emitted := [[9]] } 1 3 [7]).2 rfl,
   (emission_removes_then_any_frame_creates ImgState.init 0 1 [9]).1 (by decide)⟩

/-! ## Claim theorems: backpressure marks -/

/-- C9 counterexample: in the dedicated sender services the image
high-water mark is NOT smaller than the video one — both
`waitForBufferDrain` thresholds equal 1 MiB. -/
theorem backpressure_equal_marks_counterexample :
    ¬ imageLowThreshold < videoLowThreshold := by
  decide

/-- C9 amended: each sender transmits a chunk only when the channel's
`bufferedAmount` is strictly below its high-water mark, but in the
dedicated services (`image-transfer.service.ts`,
`video-recording.service.ts`) the two marks are equal (1 MiB each);
only the legacy combined sender (`src/unnamed/part_002`) used a
smaller image mark (256 KiB) than video mark (1 MiB). -/
theorem backpressure_strict_guard_and_marks :
    imageLowThreshold = videoLowThreshold ∧
    legacyImageMaxBuffered < legacyVideoMaxBuffered ∧
    (∀ b : Nat, imageSendAllowed b = true → b < imageLowThreshold) ∧
    (∀ b : Nat, videoSendAllowed b = true → b < videoLowThreshold) := by
  refine ⟨rfl, by decide, ?_, ?_⟩ <;> intro b hb <;>
    simpa [imageSendAllowed, videoSendAllowed] using hb

/-- C9 witness: the guards at buffered amount 0. -/
theorem backpressure_strict_guard_and_marks_witness :
    (0 : Nat) < imageLowThreshold ∧ (0 : Nat) < videoLowThreshold :=
  ⟨backpressure_strict_guard_and_marks.2.2.1 0 (by decide),
   backpressure_strict_guard_and_marks.2.2.2 0 (by decide)⟩

/-! ## Video recorder: sortedness, byte accounting, zero-chunk blobs -/

/-- Keys of `sortedInsert k v l` are `k` or keys of `l`. -/
theorem mem_keys_sortedInsert {α : Type} (k x : Int) (v : α) (l : List (Int × α))
    (hx : x ∈ (sortedInsert k v l).map Prod.fst) :
    x = k ∨ x ∈ l.map Prod.fst := by
  induction l with
  | nil => simpa [sortedInsert] using hx
  | cons q rest ih =>
    rcases q with ⟨qk, qv⟩
    by_cases h1 : k < qk
    · simpa [sortedInsert, h1] using hx
    · by_cases h2 : k = qk
      · simp only [sortedInsert, if_neg h1, if_pos h2, List.map_cons,
          List.mem_cons] at hx
        rcases hx with hx | hx
        · exact Or.inl hx
        · exact Or.inr (by simp [hx])
      · simp only [sortedInsert, if_neg h1, if_neg h2, List.map_cons,
          List.mem_cons] at hx
        rcases hx with hx | hx
        · exact Or.inr (by simp [hx])
        · rcases ih hx with hx' | hx'
          · exact Or.inl hx'
          · exact Or.inr (by simp [hx'])

/-- `sortedInsert` preserves strict ascending order of the keys, which
is the `SortedDictionary` invariant. -/
theorem pairwise_keys_sortedInsert {α : Type} (k : Int) (v : α)
    (l : List (Int × α)) (h : (l.map Prod.fst).Pairwise (· < ·)) :
    ((sortedInsert k v l).map Prod.fst).Pairwise (· < ·) := by
  induction l with
  | nil => simp [sortedInsert]
  | cons q rest ih =>
    rcases q with ⟨qk, qv⟩
    simp only [List.map_cons, List.pairwise_cons] at h
    by_cases h1 : k < qk
    · simp only [sortedInsert, if_pos h1, List.map_cons, List.pairwise_cons]
      refine ⟨?_, h.1, h.2⟩
      intro x hx
      rcases List.mem_cons.mp hx with rfl | hx'
      · exact h1
      · exact lt_trans h1 (h.1 x hx')
    · by_cases h2 : k = qk
      · subst h2
        simp only [sortedInsert, if_neg h1, if_true]
        simp only [List.map_cons, List.pairwise_cons]
        exact ⟨h.1, h.2⟩
      · have h3 : qk < k := by omega
        simp only [sortedInsert, if_neg h1, if_neg h2, List.map_cons,
          List.pairwise_cons]
        refine ⟨?_, ih h.2⟩
        intro x hx
        rcases mem_keys_sortedInsert k x v rest hx with rfl | hx'
        · exact h3
        · exact h.1 x hx'

/-- Total bytes currently stored in a completed-blob map. -/
def blobBytes (l : List (Int × ByteBuf)) : Nat :=
  (l.map (fun p => p.2.length)).sum

/-- Inserting a completed blob adds at most its length to the stored
bytes (exactly its length when the key is fresh; less when the key is
overwritten). -/
theorem blobBytes_sortedInsert (k : Int) (v : ByteBuf)
    (l : List (Int × ByteBuf)) :
    blobBytes (sortedInsert k v l) ≤ v.length + blobBytes l := by
  induction l with
  | nil => simp [sortedInsert, blobBytes]
  | cons q rest ih =>
    rcases q with ⟨qk, qv⟩
    by_cases h1 : k < qk
    · simp [sortedInsert, h1, blobBytes]
    · by_cases h2 : k = qk
      · simp only [sortedInsert, if_neg h1, if_pos h2, blobBytes,
          List.map_cons, List.sum_cons]
        omega
      · simp only [sortedInsert, if_neg h1, if_neg h2, blobBytes,
          List.map_cons, List.sum_cons]
        simp only [blobBytes] at ih
        omega

/-- One `data` action preserves both `SortedDictionary` ordering and
the bound `blobBytes ≤ TotalBytes`. -/
theorem addChunk_blobs_invariant (r : VideoRecorder) (bi ci : Int) (tc : Nat)
    (p : ByteBuf)
    (h : ((r.blobs.map Prod.fst).Pairwise (· < ·)) ∧
      blobBytes r.blobs ≤ r.totalBytes) :
    (((r.addChunk bi ci tc p).blobs.map Prod.fst).Pairwise (· < ·)) ∧
    blobBytes (r.addChunk bi ci tc p).blobs ≤ (r.addChunk bi ci tc p).totalBytes := by
  unfold VideoRecorder.addChunk
  dsimp only
  split
  · dsimp only
    refine ⟨pairwise_keys_sortedInsert _ _ _ h.1, ?_⟩
    have hle := blobBytes_sortedInsert bi
      (((match lookupKey bi r.blobAssemblers with
          | some a => a
          | none => BlobAssembler.create tc).addChunk ci p).getCompleteBlob)
      r.blobs
    have h2 := h.2
    omega
  · dsimp only
    exact h


/-- Every recorder reachable by `data` actions keeps its completed
blobs sorted strictly ascending by blob index and its stored bytes
bounded by `TotalBytes`. -/
theorem run_blobs_invariant (acts : List DataAct) :
    (((VideoRecorder.run acts).blobs.map Prod.fst).Pairwise (· < ·)) ∧
    blobBytes (VideoRecorder.run acts).blobs ≤ (VideoRecorder.run acts).totalBytes := by
  unfold VideoRecorder.run
  suffices h : ∀ r : VideoRecorder,
      ((r.blobs.map Prod.fst).Pairwise (· < ·)) ∧ blobBytes r.blobs ≤ r.totalBytes →
      (((acts.foldl (fun r a => r.addChunk a.blobIndex a.chunkIndex a.totalChunks
          a.payload) r).blobs.map Prod.fst).Pairwise (· < ·)) ∧
      blobBytes (acts.foldl (fun r a => r.addChunk a.blobIndex a.chunkIndex
          a.totalChunks a.payload) r).blobs ≤
        (acts.foldl (fun r a => r.addChunk a.blobIndex a.chunkIndex a.totalChunks
          a.payload) r).totalBytes by
    exact h VideoRecorder.init (by simp [VideoRecorder.init, blobBytes])
  induction acts with
  | nil => intro r hr; exact hr
  | cons a rest ih =>
    intro r hr
    exact ih _ (addChunk_blobs_invariant r a.blobIndex a.chunkIndex a.totalChunks
      a.payload hr)

/-- C3: after any sequence of `data` actions, the completed-blob map
is strictly ascending in blob index — whatever the completion order —
and `Finalize` emits exactly the concatenation of those completed-blob
buffers in that ascending order (`none`, "nothing to save", when no
blob completed).  Blobs that never completed are simply absent from
the map, hence omitted rather than zero-filled. -/
theorem finalize_ascending_concat (acts : List DataAct) :
    (((VideoRecorder.run acts).blobs.map Prod.fst).Pairwise (· < ·)) ∧
    (VideoRecorder.run acts).finalize =
      (if (VideoRecorder.run acts).blobs.isEmpty then none
       else some (((VideoRecorder.run acts).blobs.map Prod.snd).flatten)) :=
  ⟨(run_blobs_invariant acts).1, rfl⟩

/-- C4 counterexample: when blob index 0 completes twice (a one-chunk
blob of 5 bytes, then a one-chunk blob of 3 bytes), `TotalBytes` is 8
but the completed-blob map holds only the 3-byte overwrite, so the
claimed invariant `TotalBytes = sum of completed blob lengths` fails. -/
theorem totalBytes_counterexample :
    (VideoRecorder.run [⟨0, 0, 1, [5, 5, 5, 5, 5]⟩, ⟨0, 0, 1, [2, 2, 2]⟩]).totalBytes
      = 8 ∧
    blobBytes (VideoRecorder.run
      [⟨0, 0, 1, [5, 5, 5, 5, 5]⟩, ⟨0, 0, 1, [2, 2, 2]⟩]).blobs = 3 ∧
    ¬ ((VideoRecorder.run
        [⟨0, 0, 1, [5, 5, 5, 5, 5]⟩, ⟨0, 0, 1, [2, 2, 2]⟩]).totalBytes =
      blobBytes (VideoRecorder.run
        [⟨0, 0, 1, [5, 5, 5, 5, 5]⟩, ⟨0, 0, 1, [2, 2, 2]⟩]).blobs) := by
  decide

/-- Looking up a different key is unaffected by `sortedInsert`. -/
theorem lookupKey_sortedInsert_ne {α : Type} (k b : Int) (v : α)
    (l : List (Int × α)) (h : b ≠ k) :
    lookupKey b (sortedInsert k v l) = lookupKey b l := by
  induction l with
  | nil => simp [sortedInsert, lookupKey, h]
  | cons q rest ih =>
    rcases q with ⟨qk, qv⟩
    by_cases h1 : k < qk
    · simp [sortedInsert, h1, lookupKey, h]
    · by_cases h2 : k = qk
      · subst h2
        simp [sortedInsert, if_neg h1, lookupKey, h]
      · by_cases h3 : b = qk
        · simp [sortedInsert, if_neg h1, if_neg h2, lookupKey, h3]
        · simp [sortedInsert, if_neg h1, if_neg h2, lookupKey, h3, ih]

/-- Looking up a different key is unaffected by `setKey`. -/
theorem lookupKey_setKey_ne {α : Type} (k b : Int) (v : α)
    (l : List (Int × α)) (h : b ≠ k) :
    lookupKey b (setKey k v l) = lookupKey b l := by
  induction l with
  | nil => simp [setKey, lookupKey, h]
  | cons q rest ih =>
    rcases q with ⟨qk, qv⟩
    by_cases h2 : k = qk
    · subst h2
      simp [setKey, lookupKey, h]
    · by_cases h3 : b = qk
      · simp [setKey, h2, lookupKey, h3]
      · simp [setKey, h2, lookupKey, h3, ih]

/-- A key absent from a map is still absent after `removeKey`. -/
theorem lookupKey_removeKey_none {α : Type} (k b : Int) (l : List (Int × α))
    (h : lookupKey b l = none) :
    lookupKey b (removeKey k l) = none := by
  induction l with
  | nil => rfl
  | cons q rest ih =>
    rcases q with ⟨qk, qv⟩
    by_cases h3 : b = qk
    · simp [lookupKey, h3] at h
    · have hrest : lookupKey b rest = none := by simpa [lookupKey, h3] using h
      by_cases h2 : k = qk
      · simp [removeKey, h2, hrest]
      · simp [removeKey, h2, lookupKey, h3, ih hrest]

/-- Inserting a completed blob under a fresh key adds exactly its
length to the stored bytes. -/
theorem blobBytes_sortedInsert_fresh (k : Int) (v : ByteBuf)
    (l : List (Int × ByteBuf)) (h : lookupKey k l = none) :
    blobBytes (sortedInsert k v l) = v.length + blobBytes l := by
  induction l with
  | nil => simp [sortedInsert, blobBytes]
  | cons q rest ih =>
    rcases q with ⟨qk, qv⟩
    by_cases h1 : k < qk
    · simp [sortedInsert, h1, blobBytes]
    · by_cases h2 : k = qk
      · simp [lookupKey, h2] at h
      · have hrest : lookupKey k rest = none := by simpa [lookupKey, h2] using h
        simp only [sortedInsert, if_neg h1, if_neg h2, blobBytes,
          List.map_cons, List.sum_cons]
        simp only [blobBytes] at ih
        rw [ih hrest]
        omega

/-- When every `data` action targets a distinct blob index, each blob
completes at most once, and `TotalBytes` equals the stored completed
bytes exactly. -/
theorem run_nodup_eq (acts : List DataAct)
    (h : (acts.map (fun a => a.blobIndex)).Nodup) :
    blobBytes (VideoRecorder.run acts).blobs = (VideoRecorder.run acts).totalBytes := by
  unfold VideoRecorder.run
  suffices hgen : ∀ (acts : List DataAct) (r : VideoRecorder),
      (acts.map (fun a => a.blobIndex)).Nodup →
      blobBytes r.blobs = r.totalBytes →
      (∀ a ∈ acts, lookupKey a.blobIndex r.blobs = none) →
      (∀ a ∈ acts, lookupKey a.blobIndex r.blobAssemblers = none) →
      blobBytes ((acts.foldl (fun r a => r.addChunk a.blobIndex a.chunkIndex
          a.totalChunks a.payload) r)).blobs =
        ((acts.foldl (fun r a => r.addChunk a.blobIndex a.chunkIndex
          a.totalChunks a.payload) r)).totalBytes by
    exact hgen acts VideoRecorder.init h (by simp [VideoRecorder.init, blobBytes])
      (fun a _ => rfl) (fun a _ => rfl)
  intro acts
  induction acts with
  | nil => intro r _ h1 _ _; exact h1
  | cons a rest ih =>
    intro r hnodup h1 h2 h3
    have hrk : lookupKey a.blobIndex r.blobAssemblers = none :=
      h3 a (List.mem_cons_self _ _)
    have hbk : lookupKey a.blobIndex r.blobs = none :=
      h2 a (List.mem_cons_self _ _)
    have hnodup0 := hnodup
    simp only [List.map_cons] at hnodup0
    have hnc := List.nodup_cons.mp hnodup0
    simp only [List.foldl_cons]
    unfold VideoRecorder.addChunk
    rw [hrk]
    dsimp only
    split
    · apply ih
      · exact hnc.2
      · dsimp only
        rw [blobBytes_sortedInsert_fresh _ _ _ hbk, h1]
        omega
      · intro b hb
        dsimp only
        have hne : b.blobIndex ≠ a.blobIndex := by
          intro he
          exact hnc.1 (he ▸ List.mem_map_of_mem (fun a => a.blobIndex) hb)
        rw [lookupKey_sortedInsert_ne _ _ _ _ hne]
        exact h2 b (List.mem_cons_of_mem _ hb)
      · intro b hb
        dsimp only
        exact lookupKey_removeKey_none _ _ _ (h3 b (List.mem_cons_of_mem _ hb))
    · apply ih
      · exact hnc.2
      · dsimp only
        exact h1
      · intro b hb
        dsimp only
        exact h2 b (List.mem_cons_of_mem _ hb)
      · intro b hb
        dsimp only
        have hne : b.blobIndex ≠ a.blobIndex := by
          intro he
          exact hnc.1 (he ▸ List.mem_map_of_mem (fun a => a.blobIndex) hb)
        rw [lookupKey_setKey_ne _ _ _ _ hne]
        exact h3 b (List.mem_cons_of_mem _ hb)

/-- C4 amended: after every sequence of `data` actions, `TotalBytes`
is an upper bound on the sum of the lengths of the blobs currently
recorded as completed (a repeated completion of one blob index
overwrites the stored blob but still adds its full length, so the
bound can be strict), and for sequences in which each blob index
occurs in at most one `data` action the claimed equality holds. -/
theorem totalBytes_ge_blobBytes (acts : List DataAct) :
    blobBytes (VideoRecorder.run acts).blobs ≤ (VideoRecorder.run acts).totalBytes ∧
    ((acts.map (fun a => a.blobIndex)).Nodup →
      blobBytes (VideoRecorder.run acts).blobs = (VideoRecorder.run acts).totalBytes) :=
  ⟨(run_blobs_invariant acts).2, fun h => run_nodup_eq acts h⟩

/-- C4 witness: two single-chunk blobs under the distinct indices 0
and 1 give the bound and, via the distinctness hypothesis, the exact
equality `TotalBytes = 3 = blobBytes`. -/
theorem totalBytes_ge_blobBytes_witness :
    blobBytes (VideoRecorder.run [⟨0, 0, 1, [5, 5]⟩, ⟨1, 0, 1, [7]⟩]).blobs ≤
      (VideoRecorder.run [⟨0, 0, 1, [5, 5]⟩, ⟨1, 0, 1, [7]⟩]).totalBytes ∧
    blobBytes (VideoRecorder.run [⟨0, 0, 1, [5, 5]⟩, ⟨1, 0, 1, [7]⟩]).blobs =
      (VideoRecorder.run [⟨0, 0, 1, [5, 5]⟩, ⟨1, 0, 1, [7]⟩]).totalBytes :=
  ⟨(totalBytes_ge_blobBytes [⟨0, 0, 1, [5, 5]⟩, ⟨1, 0, 1, [7]⟩]).1,
   (totalBytes_ge_blobBytes [⟨0, 0, 1, [5, 5]⟩, ⟨1, 0, 1, [7]⟩]).2 (by decide)⟩

/-- Removing an absent key is a no-op. -/
theorem removeKey_of_lookup_none {α : Type} (k : Int) (l : List (Int × α))
    (h : lookupKey k l = none) : removeKey k l = l := by
  induction l with
  | nil => rfl
  | cons q rest ih =>
    rcases q with ⟨qk, qv⟩
    by_cases hk : k = qk
    · simp [lookupKey, hk] at h
    · simp [removeKey, hk, ih (by simpa [lookupKey, hk] using h)]

/-- Inserting a fresh key grows the map by one entry. -/
theorem length_sortedInsert_of_lookup_none {α : Type} (k : Int) (v : α)
    (l : List (Int × α)) (h : lookupKey k l = none) :
    (sortedInsert k v l).length = l.length + 1 := by
  induction l with
  | nil => rfl
  | cons q rest ih =>
    rcases q with ⟨qk, qv⟩
    by_cases h1 : k < qk
    · simp [sortedInsert, h1]
    · by_cases h2 : k = qk
      · simp [lookupKey, h2] at h
      · simp [sortedInsert, h1, h2, List.length_cons,
          ih (by simpa [lookupKey, h2] using h)]

/-- `sortedInsert` never returns the empty map. -/
theorem sortedInsert_ne_nil {α : Type} (k : Int) (v : α) (l : List (Int × α)) :
    sortedInsert k v l ≠ [] := by
  cases l with
  | nil => simp [sortedInsert]
  | cons q rest =>
    rcases q with ⟨qk, qv⟩
    by_cases h1 : k < qk
    · simp [sortedInsert, h1]
    · by_cases h2 : k = qk <;> simp [sortedInsert, h1, h2]

/-- C10 amended: a `data` action declaring `totalChunks = 0` for a
blob index with no in-progress reassembler AND no already-completed
blob creates an instantly complete (0 = 0) assembler, drops the
payload as out of range, records a zero-length completed blob for that
index (completed-blob count grows by one, `TotalBytes` unchanged, the
transient-assembler map unchanged), and `Finalize` then takes the
has-data path. -/
theorem video_zero_totalChunks (r : VideoRecorder) (k i : Int) (p : ByteBuf)
    (h1 : lookupKey k r.blobAssemblers = none)
    (h2 : lookupKey k r.blobs = none) :
    (r.addChunk k i 0 p).blobs = sortedInsert k [] r.blobs ∧
    (r.addChunk k i 0 p).totalBytes = r.totalBytes ∧
    (r.addChunk k i 0 p).blobAssemblers = r.blobAssemblers ∧
    (r.addChunk k i 0 p).blobs.length = r.blobs.length + 1 ∧
    (r.addChunk k i 0 p).finalize ≠ none := by
  have hoob : (BlobAssembler.create 0).addChunk i p = BlobAssembler.create 0 :=
    addChunk_oob _ _ _ (by rw [BlobAssembler.totalChunks_create]; omega)
  have hadd : r.addChunk k i 0 p =
      { blobs := sortedInsert k [] r.blobs
        blobAssemblers := removeKey k r.blobAssemblers
        totalBytes := r.totalBytes } := by
    unfold VideoRecorder.addChunk
    rw [h1]
    dsimp only
    rw [hoob]
    simp [BlobAssembler.isComplete, BlobAssembler.totalChunks,
      BlobAssembler.create, BlobAssembler.getCompleteBlob]
  rw [hadd]
  refine ⟨rfl, rfl, removeKey_of_lookup_none k _ h1,
    length_sortedInsert_of_lookup_none k _ _ h2, ?_⟩
  simp [VideoRecorder.finalize, List.isEmpty_iff, sortedInsert_ne_nil]

/-- C10 witness: the amended theorem at a fresh recorder, blob index
0, and payload `[9]`. -/
theorem video_zero_totalChunks_witness :
    (VideoRecorder.init.addChunk 0 0 0 [9]).blobs =
        sortedInsert 0 [] VideoRecorder.init.blobs ∧
    (VideoRecorder.init.addChunk 0 0 0 [9]).totalBytes =
        VideoRecorder.init.totalBytes ∧
    (VideoRecorder.init.addChunk 0 0 0 [9]).blobAssemblers =
        VideoRecorder.init.blobAssemblers ∧
    (VideoRecorder.init.addChunk 0 0 0 [9]).blobs.length =
        VideoRecorder.init.blobs.length + 1 ∧
    (VideoRecorder.init.addChunk 0 0 0 [9]).finalize ≠ none :=
  video_zero_totalChunks VideoRecorder.init 0 0 [9] rfl rfl

/-- C10 counterexample: if blob index 0 already has a completed blob
(and no in-progress reassembler), a `totalChunks = 0` data action
overwrites it with the empty blob and the completed-blob count does
NOT grow by one, contrary to the claim as stated. -/
theorem video_zero_totalChunks_counterexample :
    (VideoRecorder.init.addChunk 0 0 1 [5]).blobAssemblers = [] ∧
    ((VideoRecorder.init.addChunk 0 0 1 [5]).addChunk 0 0 0 [9]).blobs.length =
      (VideoRecorder.init.addChunk 0 0 1 [5]).blobs.length := by
  decide

/-! ## Round-trip infrastructure: assemblers with a known filled set -/

/-- Slot array holding chunk `f i` exactly at the indices in `s`. -/
def slotsOf (f : Nat → ByteBuf) (n : Nat) (s : Finset Nat) :
    List (Option ByteBuf) :=
  (List.range n).map (fun i => if i ∈ s then some (f i) else none)

/-- Assembler that has received exactly the chunks with indices in
`s` (out of `n`) of the chunk function `f`. -/
def asmOf (f : Nat → ByteBuf) (n : Nat) (s : Finset Nat) : BlobAssembler :=
  { chunks := slotsOf f n s, receivedCount := s.card }

/-- A fresh assembler has received nothing. -/
theorem create_eq_asmOf (f : Nat → ByteBuf) (n : Nat) :
    BlobAssembler.create n = asmOf f n ∅ := by
  unfold BlobAssembler.create asmOf slotsOf
  refine congrArg₂ BlobAssembler.mk ?_ (by simp)
  symm
  apply List.eq_replicate_iff.mpr
  refine ⟨by simp, ?_⟩
  intro b hb
  rcases List.mem_map.mp hb with ⟨i, _, hi⟩
  simpa using hi.symm

/-- Setting one element of a mapped range is mapping a pointwise
update. -/
theorem set_map_range (g : Nat → Option ByteBuf) (n j : Nat)
    (x : Option ByteBuf) (hj : j < n) :
    ((List.range n).map g).set j x =
      (List.range n).map (fun i => if i = j then x else g i) := by
  apply List.ext_getElem?
  intro m
  by_cases hm : m < n
  · by_cases hmj : m = j
    · subst hmj
      rw [List.getElem?_set_self (by simpa using hm), List.getElem?_map,
        List.getElem?_range hm]
      simp
    · rw [List.getElem?_set_ne (fun h => hmj h.symm), List.getElem?_map,
        List.getElem?_map, List.getElem?_range hm]
      simp [hmj]
  · have h1 : ((List.range n).map g).length ≤ m := by
      simpa using Nat.le_of_not_lt hm
    rw [List.getElem?_eq_none (by simpa using h1)]
    rw [List.getElem?_eq_none (by simpa using Nat.le_of_not_lt hm)]

/-- Receiving chunk `j` (not yet held) extends the filled set by `j`. -/
theorem addChunk_asmOf (f : Nat → ByteBuf) (n : Nat) (s : Finset Nat) (j : Nat)
    (hjn : j < n) (hjs : j ∉ s) :
    (asmOf f n s).addChunk (j : Int) (f j) = asmOf f n (insert j s) := by
  have hguard : ¬ ((j : Int) < 0 ∨ ((asmOf f n s).totalChunks : Int) ≤ (j : Int)) := by
    push_neg
    constructor
    · omega
    · have h : (asmOf f n s).totalChunks = n := by
        simp [asmOf, BlobAssembler.totalChunks, slotsOf]
      rw [h]
      exact_mod_cast hjn
  have hslot : (asmOf f n s).chunks.getD ((j : Int)).toNat none = none := by
    simp only [asmOf, slotsOf, Int.toNat_natCast]
    rw [List.getD_eq_getElem?_getD, List.getElem?_map, List.getElem?_range hjn]
    simp [hjs]
  rw [addChunk_fills _ _ _ hguard hslot]
  unfold asmOf slotsOf
  refine congrArg₂ BlobAssembler.mk ?_ ?_
  · simp only [Int.toNat_natCast]
    rw [set_map_range _ n j _ hjn]
    apply List.map_congr_left
    intro i hi
    by_cases hij : i = j
    · subst hij; simp
    · simp [hij, Finset.mem_insert]
  · rw [Finset.card_insert_of_not_mem hjs]

/-- Completeness of a partially filled assembler is fullness of the
filled set. -/
theorem isComplete_asmOf (f : Nat → ByteBuf) (n : Nat) (s : Finset Nat) :
    (asmOf f n s).isComplete = (s.card == n) := by
  simp [asmOf, BlobAssembler.isComplete, BlobAssembler.totalChunks, slotsOf]

/-- Materializing a fully filled assembler concatenates all chunks in
index order. -/
theorem getCompleteBlob_full (f : Nat → ByteBuf) (n : Nat) :
    (asmOf f n (Finset.range n)).getCompleteBlob =
      ((List.range n).map f).flatten := by
  unfold asmOf slotsOf BlobAssembler.getCompleteBlob
  dsimp only
  have h1 : (List.range n).map
      (fun i => if i ∈ Finset.range n then some (f i) else none) =
      (List.range n).map (fun i => some (f i)) := by
    apply List.map_congr_left
    intro i hi
    simp [Finset.mem_range.mpr (List.mem_range.mp hi)]
  rw [h1, List.filterMap_map]
  have h2 : (List.filterMap (id ∘ fun i => some (f i)) (List.range n)) =
      (List.range n).map f := by
    have h3 : (id ∘ fun i : Nat => some (f i)) = some ∘ f := rfl
    rw [h3, List.filterMap_eq_map]
  rw [h2]

/-- Ceiling-division recurrence: one more chunk for a nonempty
buffer. -/
theorem totalChunksFor_rec (len C : Nat) (hC : 0 < C) (hlen : 0 < len) :
    totalChunksFor len C = 1 + totalChunksFor (len - C) C := by
  unfold totalChunksFor
  by_cases hle : len ≤ C
  · have h1 : len - C = 0 := by omega
    rw [h1]
    have h2 : (0 + C - 1) / C = 0 := Nat.div_eq_of_lt (by omega)
    have h3 : (len + C - 1) / C = 1 := by
      rw [Nat.div_eq_sub_div hC (by omega), Nat.div_eq_of_lt (by omega)]
    rw [h2, h3]
  · have h4 : len + C - 1 = (len - C + C - 1) + C := by omega
    rw [h4, Nat.add_div_right _ hC]
    omega

/-- Chunk `i + 1` of `B` is chunk `i` of `B` without its first `C`
bytes. -/
theorem chunkAt_succ (B : ByteBuf) (C i : Nat) :
    chunkAt B C (i + 1) = chunkAt (B.drop C) C i := by
  unfold chunkAt
  rw [List.drop_drop]
  congr 2
  ring

/-- Concatenating the sender's chunk slices in index order
reconstructs the buffer. -/
theorem flatten_chunks (C : Nat) (hC : 0 < C) (B : ByteBuf) :
    ((List.range (totalChunksFor B.length C)).map (chunkAt B C)).flatten = B := by
  suffices h : ∀ (m : Nat) (B : ByteBuf), B.length ≤ m →
      ((List.range (totalChunksFor B.length C)).map (chunkAt B C)).flatten = B by
    exact h B.length B le_rfl
  intro m
  induction m with
  | zero =>
    intro B hB
    have hnil : B = [] := List.eq_nil_of_length_eq_zero (by omega)
    subst hnil
    have h0 : totalChunksFor 0 C = 0 := by
      unfold totalChunksFor
      exact Nat.div_eq_of_lt (by omega)
    simp [h0]
  | succ m ih =>
    intro B hB
    by_cases hnil : B = []
    · subst hnil
      have h0 : totalChunksFor 0 C = 0 := by
        unfold totalChunksFor
        exact Nat.div_eq_of_lt (by omega)
      simp [h0]
    · have hlen : 0 < B.length := List.length_pos.mpr hnil
      rw [totalChunksFor_rec B.length C hC hlen, Nat.add_comm 1 _,
        List.range_succ_eq_map]
      rw [List.map_cons, List.map_map, List.flatten_cons]
      have htail : (List.range (totalChunksFor (B.length - C) C)).map
          (chunkAt B C ∘ Nat.succ) =
          (List.range (totalChunksFor (B.drop C).length C)).map
            (chunkAt (B.drop C) C) := by
        rw [List.length_drop]
        apply List.map_congr_left
        intro i hi
        exact chunkAt_succ B C i
      rw [htail, ih (B.drop C) (by rw [List.length_drop]; omega)]
      have hhead : chunkAt B C 0 = B.take C := by
        unfold chunkAt
        rw [Nat.zero_mul, List.drop_zero]
      rw [hhead]
      exact List.take_append_drop C B

/-- Core filling argument: starting from a live assembler that already
holds the chunks in `s` (with chunk 0 among them), delivering the
remaining distinct chunks in any order completes the transfer exactly
at the last frame, emits the full concatenation, and removes the
assembler. -/
theorem deliver_fill (f : Nat → ByteBuf) (n : Nat) :
    ∀ (rest : List (Nat × ByteBuf)) (s : Finset Nat) (em : List ByteBuf),
      rest ≠ [] →
      s ⊆ Finset.range n → 0 ∈ s →
      (rest.map Prod.fst).Nodup →
      (∀ q ∈ rest, q.1 < n ∧ q.1 ∉ s ∧ q.2 = f q.1) →
      s.card + rest.length = n →
      deliverImageFrames { assembler := some (asmOf f n s), emitted := em } n rest
        = { assembler := none,
            emitted := em ++ [((List.range n).map f).flatten] } := by
  intro rest
  induction rest with
  | nil => intro s em hne; exact absurd rfl hne
  | cons q rest' ih =>
    rcases q with ⟨j, pj⟩
    intro s em _ hsub h0 hnodup hq hcard
    obtain ⟨hjn, hjs, hpj⟩ := hq (j, pj) (List.mem_cons_self _ _)
    dsimp only at hjn hjs hpj
    have hj0 : j ≠ 0 := fun h => hjs (h ▸ h0)
    have hnodup' := hnodup
    simp only [List.map_cons] at hnodup'
    have hnc := List.nodup_cons.mp hnodup'
    have hstep : processImageChunk
        { assembler := some (asmOf f n s), emitted := em } (j : Int) n pj =
        (if (insert j s).card = n then
          ({ assembler := none,
             emitted := em ++ [((List.range n).map f).flatten] } : ImgState)
         else { assembler := some (asmOf f n (insert j s)), emitted := em }) := by
      unfold processImageChunk
      dsimp only
      rw [if_neg (show ¬ ((j : Int) = 0) from by simpa using hj0), hpj,
        addChunk_asmOf f n s j hjn hjs, isComplete_asmOf]
      by_cases hc : (insert j s).card = n
      · have hfull : insert j s = Finset.range n :=
          Finset.eq_of_subset_of_card_le
            (Finset.insert_subset_iff.mpr ⟨Finset.mem_range.mpr hjn, hsub⟩)
            (by rw [Finset.card_range, hc])
        rw [if_pos hc]
        rw [if_pos (by rw [hc]; simp)]
        rw [hfull, getCompleteBlob_full]
      · rw [if_neg hc]
        rw [if_neg (by simpa using hc)]
    cases rest' with
    | nil =>
      have hcEq : (insert j s).card = n := by
        rw [Finset.card_insert_of_not_mem hjs]
        simp only [List.length_cons, List.length_nil] at hcard
        omega
      unfold deliverImageFrames
      simp only [List.foldl_cons, List.foldl_nil]
      rw [show processImageChunk
          { assembler := some (asmOf f n s), emitted := em }
            (((j, pj).1 : Nat) : Int) n (j, pj).2 =
          processImageChunk { assembler := some (asmOf f n s), emitted := em }
            (j : Int) n pj from rfl]
      rw [hstep, if_pos hcEq]
    | cons q2 rest2 =>
      have hcLt : (insert j s).card ≠ n := by
        rw [Finset.card_insert_of_not_mem hjs]
        simp only [List.length_cons] at hcard
        omega
      have hjnotin : j ∉ (q2 :: rest2).map Prod.fst := hnc.1
      unfold deliverImageFrames
      simp only [List.foldl_cons]
      rw [show processImageChunk
          { assembler := some (asmOf f n s), emitted := em }
            (((j, pj).1 : Nat) : Int) n (j, pj).2 =
          processImageChunk { assembler := some (asmOf f n s), emitted := em }
            (j : Int) n pj from rfl]
      rw [hstep, if_neg hcLt]
      have happ := ih (insert j s) em (by simp)
        (Finset.insert_subset_iff.mpr ⟨Finset.mem_range.mpr hjn, hsub⟩)
        (Finset.mem_insert_of_mem h0)
        hnc.2
        (by
          intro q hqmem
          obtain ⟨hq1, hq2, hq3⟩ := hq q (List.mem_cons_of_mem _ hqmem)
          refine ⟨hq1, ?_, hq3⟩
          intro hmem
          rcases Finset.mem_insert.mp hmem with hqj | hqs
          · exact hjnotin (hqj ▸ List.mem_map_of_mem Prod.fst hqmem)
          · exact hq2 hqs)
        (by
          rw [Finset.card_insert_of_not_mem hjs]
          simp only [List.length_cons] at hcard ⊢
          omega)
      unfold deliverImageFrames at happ
      exact happ

/-! ## Sender framing: header overflow -/

/-- C2 counterexample: with a 52-character camera id the image header
JSON serializes to more than 64 bytes, yet `sendChunkedImage` still
transmits: it produces one 65-byte packet (truncated 64-byte header
region plus the 1-byte payload) instead of failing with zero bytes
sent. -/
theorem header_overflow_counterexample :
    IMAGE_HEADER_SIZE <
      (strBytes (chunkHeaderJson
        ⟨"camera-with-an-extremely-long-identifier-string-0001", 0, 1⟩)).length ∧
    sendChunkedImage "camera-with-an-extremely-long-identifier-string-0001" [7]
      ≠ [] ∧
    (sendChunkedImage "camera-with-an-extremely-long-identifier-string-0001"
        [7]).map List.length = [IMAGE_HEADER_SIZE + 1] := by
  refine ⟨by decide, by decide, by decide⟩

/-- C2 amended: a header whose JSON serialization exceeds the fixed
header size for its kind is not rejected; both packet builders
silently truncate the header bytes to the fixed size
(`headerBytes.slice(0, HEADER_SIZE)`) and still produce a frame of
full header size plus payload, which the send loop transmits. -/
theorem header_overflow_truncates :
    (∀ (h : ChunkHeader) (p : ByteBuf),
        IMAGE_HEADER_SIZE < (strBytes (chunkHeaderJson h)).length →
        createImagePacket h p =
          (strBytes (chunkHeaderJson h)).take IMAGE_HEADER_SIZE ++ p ∧
        (createImagePacket h p).length = IMAGE_HEADER_SIZE + p.length) ∧
    (∀ (h : VideoChunkHeader) (p : ByteBuf),
        VIDEO_HEADER_SIZE < (strBytes (videoChunkHeaderJson h)).length →
        createVideoPacket h p =
          (strBytes (videoChunkHeaderJson h)).take VIDEO_HEADER_SIZE ++ p ∧
        (createVideoPacket h p).length = VIDEO_HEADER_SIZE + p.length) := by
  constructor
  · intro h p hover
    have hlen : ((strBytes (chunkHeaderJson h)).take IMAGE_HEADER_SIZE).length
        = IMAGE_HEADER_SIZE := by
      rw [List.length_take]
      exact Nat.min_eq_left hover.le
    constructor
    · unfold createImagePacket
      dsimp only
      rw [hlen]
      simp
    · unfold createImagePacket
      dsimp only
      rw [hlen]
      simp [List.length_append, hlen]
  · intro h p hover
    have hlen : ((strBytes (videoChunkHeaderJson h)).take VIDEO_HEADER_SIZE).length
        = VIDEO_HEADER_SIZE := by
      rw [List.length_take]
      exact Nat.min_eq_left hover.le
    constructor
    · unfold createVideoPacket
      dsimp only
      rw [hlen]
      simp
    · unfold createVideoPacket
      dsimp only
      rw [hlen]
      simp [List.length_append, hlen]

/-- C2 witness: concrete oversized image and video headers are
truncated and framed, not rejected. -/
theorem header_overflow_truncates_witness :
    createImagePacket
        ⟨"camera-with-an-extremely-long-identifier-string-0001", 0, 1⟩ [7] =
      (strBytes (chunkHeaderJson
        ⟨"camera-with-an-extremely-long-identifier-string-0001", 0, 1⟩)).take
          IMAGE_HEADER_SIZE ++ [7] ∧
    createVideoPacket
        ⟨"data",
         "recording-id-0123456789-0123456789-0123456789-0123456789-0123456789-0123456789-0123456789-0123456789",
         "camera-with-an-extremely-long-identifier-string-0001",
         "video/webm;codecs=vp8,opus-with-a-deliberately-long-parameter-list-0123456789",
         0, 1, 0⟩ [7] =
      (strBytes (videoChunkHeaderJson
        ⟨"data",
         "recording-id-0123456789-0123456789-0123456789-0123456789-0123456789-0123456789-0123456789-0123456789",
         "camera-with-an-extremely-long-identifier-string-0001",
         "video/webm;codecs=vp8,opus-with-a-deliberately-long-parameter-list-0123456789",
         0, 1, 0⟩)).take VIDEO_HEADER_SIZE ++ [7] :=
  ⟨(header_overflow_truncates.1 _ [7] (by decide)).1,
   (header_overflow_truncates.2 _ [7] (by decide)).1⟩

/-- C1 counterexample: for `B = [1,2,3]`, `C = 2`, the frame list has
chunks 0 and 1; delivering them in the permuted order (chunk 1 first)
through the image reassembly path emits nothing at all — the reset on
`chunkIndex == 0` discards chunk 1, so the transfer never completes
and no reassembled buffer is produced, contrary to the claim for
arbitrary permutations. -/
theorem image_roundtrip_counterexample :
    [((1 : Nat), [3]), (0, [1, 2])].Perm (imageFrames [1, 2, 3] 2) ∧
    (deliverImageFrames ImgState.init (totalChunksFor ([1, 2, 3] : ByteBuf).length 2)
        [(1, [3]), (0, [1, 2])]).emitted = [] := by
  refine ⟨by decide, by decide⟩

/-- C1 amended: for every nonempty buffer `B` and positive chunk size
`C`, delivering the `ceil(len B / C)` framed chunks to the image
reassembly path in ANY permutation whose first frame is the
`chunkIndex = 0` frame emits exactly one buffer, bit-identical to
`B`.  (Permutations that deliver a non-zero index before chunk 0 can
fail to reassemble, as the counterexample shows: the reset on chunk 0
discards everything delivered before it.) -/
theorem image_roundtrip_zero_first (B : ByteBuf) (C : Nat) (hC : 0 < C)
    (c : ByteBuf) (rest : List (Nat × ByteBuf))
    (hperm : ((0, c) :: rest).Perm (imageFrames B C)) :
    (deliverImageFrames ImgState.init (totalChunksFor B.length C)
        ((0, c) :: rest)).emitted = [B] := by
  have hflat : ((List.range (totalChunksFor B.length C)).map (chunkAt B C)).flatten
      = B := flatten_chunks C hC B
  have hlen : rest.length + 1 = totalChunksFor B.length C := by
    have h1 := hperm.length_eq
    simpa [imageFrames] using h1
  have hmem : (0, c) ∈ imageFrames B C := hperm.mem_iff.mp (List.mem_cons_self _ _)
  have hc0 : c = chunkAt B C 0 := by
    have hmem' : (0, c) ∈ (List.range (totalChunksFor B.length C)).map
        (fun i => (i, chunkAt B C i)) := hmem
    rcases List.mem_map.mp hmem' with ⟨i, hi, heq⟩
    have h2 := (Prod.mk.injEq _ _ _ _).mp heq
    rw [← h2.2, h2.1]
  subst hc0
  obtain ⟨m, hm⟩ : ∃ m, totalChunksFor B.length C = m + 1 :=
    ⟨rest.length, hlen.symm⟩
  rw [hm] at hflat hlen ⊢
  have hframes : imageFrames B C =
      (0, chunkAt B C 0) ::
        (List.range m).map (fun i => (i + 1, chunkAt B C (i + 1))) := by
    unfold imageFrames
    rw [hm, List.range_succ_eq_map, List.map_cons, List.map_map]
    rfl
  have hrest : rest.Perm
      ((List.range m).map (fun i => (i + 1, chunkAt B C (i + 1)))) := by
    apply List.Perm.cons_inv (a := (0, chunkAt B C 0))
    rw [← hframes]
    exact hperm
  have hone : (insert 0 (∅ : Finset Nat)).card = 1 := by decide
  have hstate1 : processImageChunk ImgState.init (((0 : Nat) : Int)) (m + 1)
      (chunkAt B C 0) =
      (if m = 0 then
        ({ assembler := none,
           emitted := [((List.range (m + 1)).map (chunkAt B C)).flatten] } : ImgState)
       else { assembler := some (asmOf (chunkAt B C) (m + 1) (insert 0 ∅)),
              emitted := [] }) := by
    unfold processImageChunk
    dsimp only
    rw [if_pos (show ((0 : Nat) : Int) = 0 from by simp)]
    rw [create_eq_asmOf (chunkAt B C) (m + 1),
      addChunk_asmOf (chunkAt B C) (m + 1) ∅ 0 (Nat.succ_pos m)
        (Finset.not_mem_empty 0),
      isComplete_asmOf, hone]
    by_cases hm0 : m = 0
    · subst hm0
      rw [if_pos (by simp), if_pos rfl]
      rw [show (insert 0 (∅ : Finset Nat)) = Finset.range 1 from by decide]
      rw [getCompleteBlob_full]
      rfl
    · rw [if_neg (show ¬ ((1 == m + 1) = true) from by
        simp
        omega)]
      rw [if_neg hm0]
      rfl
  unfold deliverImageFrames
  simp only [List.foldl_cons]
  rw [show processImageChunk ImgState.init (((0, chunkAt B C 0).1 : Nat) : Int)
      (m + 1) (0, chunkAt B C 0).2 =
      processImageChunk ImgState.init (((0 : Nat) : Int)) (m + 1)
        (chunkAt B C 0) from rfl]
  rw [hstate1]
  by_cases hm0 : m = 0
  · subst hm0
    have hrestnil : rest = [] := List.eq_nil_of_length_eq_zero (by omega)
    subst hrestnil
    simp only [List.foldl_nil]
    simp [hflat]
  · rw [if_neg hm0]
    have hfill := deliver_fill (chunkAt B C) (m + 1) rest (insert 0 ∅) []
      (by
        intro h
        rw [h] at hlen
        simp at hlen
        omega)
      (by
        intro x hx
        have hx0 : x = 0 := by simpa using hx
        subst hx0
        simp [Finset.mem_range])
      (by simp)
      (by
        rw [(hrest.map Prod.fst).nodup_iff, List.map_map]
        refine List.Nodup.map ?_ (List.nodup_range m)
        intro a b h
        simpa using h)
      (by
        intro q hq
        rcases List.mem_map.mp (hrest.mem_iff.mp hq) with ⟨i, hi, hqe⟩
        subst hqe
        refine ⟨by simpa using List.mem_range.mp hi, by simp, rfl⟩)
      (by
        rw [hone]
        omega)
    unfold deliverImageFrames at hfill
    rw [hfill]
    simpa using hflat

/-- C1 witness: `B = [5,6,7]`, `C = 2`, frames delivered in order
chunk 0 then chunk 1, emitting exactly `[B]`. -/
theorem image_roundtrip_zero_first_witness :
    (deliverImageFrames ImgState.init
        (totalChunksFor ([5, 6, 7] : ByteBuf).length 2)
        [(0, [5, 6]), (1, [7])]).emitted = [[5, 6, 7]] :=
  image_roundtrip_zero_first [5, 6, 7] 2 (by decide) [5, 6] [(1, [7])] (by decide)

end ChunkTransfer
